import Mathlib

/-!
Verification of the geometric core of `three-extruded-image`
(`src/extruder.ts`): mask extraction, the grid silhouette mesher
(`createGeometryFromImageData` / `isSolid`), the Moore contour tracer
(`traceOutline` / `isEdge`), and the two mesh-generation entry points
(`generateMesh`, `generateMeshLegacy` / `createGeometry`).

The RGBA buffer is modelled by its alpha channel as a function from the
flat row-major pixel index to the alpha byte; machine floats are modelled
by exact rationals.
-/

namespace Extruder

/-- The alpha channel of a decoded RGBA buffer: `alpha i` is the value of
`data[i * 4 + 3]` for the flat row-major pixel index `i = y * width + x`. -/
structure ImageData where
  width : ℕ
  height : ℕ
  alpha : ℕ → ℕ

/-- Extrusion parameters (`ExtrudedImageOptions` in `extruder.ts`):
`thickness`, `size`, `alphaThreshold`. -/
structure Options where
  thickness : ℚ
  size : ℚ
  alphaThreshold : ℕ

/-- Grid-mesher solidity test (`isSolid` in `extruder.ts`): out-of-bounds
pixels are not solid, in-bounds pixels are solid iff
`data[(y*width+x)*4+3] >= alphaThreshold`. -/
def isSolid (img : ImageData) (t : ℕ) (x y : ℤ) : Bool :=
  if x < 0 ∨ y < 0 ∨ (img.width : ℤ) ≤ x ∨ (img.height : ℤ) ≤ y then false
  else decide (t ≤ img.alpha (y.toNat * img.width + x.toNat))

/-- The threshold pass at the top of `traceOutline`: every pixel with
`alpha < threshold` becomes fully transparent (0), every other pixel fully
opaque (255). Only the `width*height` pixels of the buffer are touched. -/
def binarize (img : ImageData) (t : ℕ) : ImageData :=
  { img with
    alpha := fun i =>
      if i < img.width * img.height then
        if img.alpha i < t then 0 else 255
      else img.alpha i }

@[simp] theorem binarize_width (img : ImageData) (t : ℕ) :
    (binarize img t).width = img.width := rfl

@[simp] theorem binarize_height (img : ImageData) (t : ℕ) :
    (binarize img t).height = img.height := rfl

/-- Contour-tracer edge predicate (`isEdge` inside `traceOutline`):
in bounds, alpha strictly above the threshold, and on the image border or
with a 4-neighbor whose alpha is strictly below the threshold. -/
def isEdge (img : ImageData) (t : ℕ) (x y : ℤ) : Bool :=
  if x < 0 ∨ (img.width : ℤ) ≤ x ∨ y < 0 ∨ (img.height : ℤ) ≤ y then false
  else
    decide (t < img.alpha (y.toNat * img.width + x.toNat)) &&
      (decide (x = 0) || decide (y = 0) ||
        decide (x = (img.width : ℤ) - 1) || decide (y = (img.height : ℤ) - 1) ||
        decide (img.alpha ((y.toNat - 1) * img.width + x.toNat) < t) ||
        decide (img.alpha ((y.toNat + 1) * img.width + x.toNat) < t) ||
        decide (img.alpha (y.toNat * img.width + x.toNat - 1) < t) ||
        decide (img.alpha (y.toNat * img.width + x.toNat + 1) < t))

/-- Bounding box record returned by `traceOutline`. -/
structure Bounds where
  minX : ℤ
  minY : ℤ
  maxX : ℤ
  maxY : ℤ
deriving DecidableEq, Repr

/-- Initial bounds in `traceOutline`: `minX = width`, `minY = height`,
`maxX = maxY = 0`. -/
def initBounds (img : ImageData) : Bounds :=
  ⟨(img.width : ℤ), (img.height : ℤ), 0, 0⟩

/-- One `updateBounds` call of `traceOutline`. -/
def updateBounds (b : Bounds) (p : ℤ × ℤ) : Bounds :=
  ⟨min b.minX p.1, min b.minY p.2, max b.maxX p.1, max b.maxY p.2⟩

/-- The bounds accumulated by calling `updateBounds` once per traced
point, in trace order. -/
def boundsFold (l : List (ℤ × ℤ)) (b : Bounds) : Bounds :=
  l.foldl updateBounds b

/-- The `directions` table of the walk, indexed by direction number:
up, up-right, right, down-right, down, down-left, left, up-left. -/
def dirOf : ℕ → ℤ × ℤ
  | 0 => (0, -1)
  | 1 => (1, -1)
  | 2 => (1, 0)
  | 3 => (1, 1)
  | 4 => (0, 1)
  | 5 => (-1, 1)
  | 6 => (-1, 0)
  | 7 => (-1, -1)
  | _ => (0, 0)

/-- Inner loop of the walk's neighbor search: try direction offsets `is`
in order starting from `dir`, returning the first 8-neighbor that is an
edge pixel and not yet visited, together with its direction number. -/
def findNextGo (img : ImageData) (t : ℕ) (x y : ℤ) (dir : ℕ)
    (visited : List (ℤ × ℤ)) : List ℕ → Option (ℤ × ℤ × ℕ)
  | [] => none
  | i :: rest =>
    let nd := (dir + i) % 8
    let d := dirOf nd
    let nx := x + d.1
    let ny := y + d.2
    if isEdge img t nx ny = true ∧ (nx, ny) ∉ visited then some (nx, ny, nd)
    else findNextGo img t x y dir visited rest

/-- The walk's neighbor search (`for i in 0..8` inside the do-while). -/
def findNext (img : ImageData) (t : ℕ) (x y : ℤ) (dir : ℕ)
    (visited : List (ℤ × ℤ)) : Option (ℤ × ℤ × ℕ) :=
  findNextGo img t x y dir visited (List.range 8)

/-- Final state of the contour walk: traced outline, final position and
direction, visited set, and whether the do-while exited through its
`x === startX && y === startY` condition (as opposed to the
`if (!found) break`). -/
structure WalkResult where
  outline : List (ℤ × ℤ)
  x : ℤ
  y : ℤ
  dir : ℕ
  visited : List (ℤ × ℤ)
  reached : Bool
deriving DecidableEq, Repr

/-- The do-while walk of `traceOutline`, with explicit fuel (`none` means
the fuel ran out, which `walkAux_isSome` below shows cannot happen with
fuel `width*height + 1`). Each iteration pushes the current pixel to the
outline, marks it visited, and moves to the first unvisited edge neighbor;
the loop exits when no such neighbor exists, or through the while
condition when a move lands on the start pixel. -/
def walkAux (img : ImageData) (t : ℕ) (sx sy : ℤ) :
    ℕ → ℤ → ℤ → ℕ → List (ℤ × ℤ) → List (ℤ × ℤ) → Option WalkResult
  | 0, _, _, _, _, _ => none
  | fuel + 1, x, y, dir, visited, outline =>
    let outline1 := outline ++ [(x, y)]
    let visited1 := (x, y) :: visited
    match findNext img t x y dir visited1 with
    | none => some ⟨outline1, x, y, dir, visited1, false⟩
    | some (nx, ny, nd) =>
      if nx = sx ∧ ny = sy then some ⟨outline1, nx, ny, nd, visited1, true⟩
      else walkAux img t sx sy fuel nx ny nd visited1 outline1

/-- Row-major raster scan for the first edge pixel (the labelled
`outerLoop` of `traceOutline`). -/
def findStart (img : ImageData) (t : ℕ) : Option (ℤ × ℤ) :=
  ((List.range img.height).flatMap fun y =>
    (List.range img.width).map fun x =>
      (((x : ℕ) : ℤ), ((y : ℕ) : ℤ))).find?
    fun p => isEdge img t p.1 p.2

/-- The contour trace on the binarized image: find the start pixel and run
the walk with fuel `width*height + 1`. -/
def traceFull (img : ImageData) (t : ℕ) : Option WalkResult :=
  let bin := binarize img t
  match findStart bin t with
  | none => none
  | some (sx, sy) =>
    walkAux bin t sx sy (img.width * img.height + 1) sx sy 0 [] []

/-- Result record of the public `traceOutline` method. -/
structure TraceResult where
  outline : List (ℤ × ℤ)
  bounds : Bounds
deriving DecidableEq, Repr

/-- The public `traceOutline`: binarize, scan for a start pixel, walk, and
return the outline together with the running bounding box (left at its
degenerate initial value when nothing is traced). -/
def traceOutline (img : ImageData) (t : ℕ) : TraceResult :=
  match traceFull img t with
  | none => ⟨[], initBounds img⟩
  | some r => ⟨r.outline, boundsFold r.outline (initBounds img)⟩

/-! ## Grid silhouette mesher (`createGeometryFromImageData`) -/

/-- Buffer-building state of `createGeometryFromImageData`: the `vts`,
`uvs` and `indices` arrays (positions and uvs grouped per vertex) and the
running vertex counter `vt`. -/
structure GeoState where
  positions : List (ℚ × ℚ × ℚ)
  uvs : List (ℚ × ℚ)
  indices : List ℕ
  vt : ℕ
deriving DecidableEq, Repr

/-- The `pushFace` closure: four wall vertices spanning depth
`[-d2, +d2]`, a single repeated uv coordinate derived from the corner of
the quad, and two triangles over the four new vertices. -/
def pushFace (d2 : ℚ) (x1 y1 x2 y2 : ℤ) (st : GeoState) : GeoState :=
  let ux : ℚ := (min x1 x2 : ℤ) + (if y1 < y2 then -(1 / 2 : ℚ) else 1 / 2)
  let uy : ℚ := (min y1 y2 : ℤ) + (if x2 < x1 then -(1 / 2 : ℚ) else 1 / 2)
  { positions := st.positions ++
      [((x1 : ℚ), (y1 : ℚ), -d2), ((x2 : ℚ), (y2 : ℚ), -d2),
       ((x2 : ℚ), (y2 : ℚ), d2), ((x1 : ℚ), (y1 : ℚ), d2)],
    uvs := st.uvs ++ [(ux, uy), (ux, uy), (ux, uy), (ux, uy)],
    indices := st.indices ++
      [st.vt, st.vt + 1, st.vt + 2, st.vt + 2, st.vt + 3, st.vt],
    vt := st.vt + 4 }

/-- Body of the scan loop at one grid position `(x, y)`: the four
solidity-transition tests, each emitting one wall quad. -/
def stepCell (img : ImageData) (t : ℕ) (d2 : ℚ) (st : GeoState)
    (c : ℤ × ℤ) : GeoState :=
  let x := c.1
  let y := c.2
  let left := isSolid img t x y
  let right := isSolid img t (x - 1) y
  let top := isSolid img t x (y - 1)
  let bottom := isSolid img t x y
  let st1 := if !left && right then pushFace d2 x y x (y + 1) st else st
  let st2 := if left && !right then pushFace d2 x (y + 1) x y st1 else st1
  let st3 := if top && !bottom then pushFace d2 (x + 1) y x y st2 else st2
  if !top && bottom then pushFace d2 x y (x + 1) y st3 else st3

/-- The scan order of `createGeometryFromImageData`: `y` from `-1` to
`height`, and for each `y`, `x` from `-1` to `width`. -/
def scanCells (w h : ℕ) : List (ℤ × ℤ) :=
  (List.range (h + 2)).flatMap fun j =>
    (List.range (w + 2)).map fun i =>
      (((i : ℕ) : ℤ) - 1, ((j : ℕ) : ℤ) - 1)

/-- The cap triangle indices pushed before the scan loop. -/
def capIndices : List ℕ := [0, 1, 2, 2, 3, 0, 4, 7, 6, 6, 5, 4]

/-- Initial buffer state: the eight cap vertices of the front and back
faces (full `width × height` rectangles at depth `±d2`), their uvs, and
the cap triangle indices. -/
def gridInit (w h : ℕ) (d2 : ℚ) : GeoState :=
  { positions :=
      [(0, 0, d2), ((w : ℚ), 0, d2), ((w : ℚ), (h : ℚ), d2), (0, (h : ℚ), d2),
       (0, 0, -d2), ((w : ℚ), 0, -d2), ((w : ℚ), (h : ℚ), -d2), (0, (h : ℚ), -d2)],
    uvs :=
      [(0, 0), ((w : ℚ), 0), ((w : ℚ), (h : ℚ)), (0, (h : ℚ)),
       (0, 0), ((w : ℚ), 0), ((w : ℚ), (h : ℚ)), (0, (h : ℚ))],
    indices := capIndices,
    vt := 8 }

/-- The raw buffers after the scan loop, before uv scaling, centering,
rescale and rotation. -/
def gridRaw (img : ImageData) (t : ℕ) (d2 : ℚ) : GeoState :=
  (scanCells img.width img.height).foldl (stepCell img t d2)
    (gridInit img.width img.height d2)

/-- Minimum of a list of rationals (0 for the empty list; the geometry
always has at least the eight cap vertices). -/
def qmin : List ℚ → ℚ
  | [] => 0
  | a :: l => l.foldl min a

/-- Maximum of a list of rationals (0 for the empty list). -/
def qmax : List ℚ → ℚ
  | [] => 0
  | a :: l => l.foldl max a

/-- Output mesh buffer: positions, uvs and triangle indices. -/
structure Geo where
  positions : List (ℚ × ℚ × ℚ)
  uvs : List (ℚ × ℚ)
  indices : List ℕ
deriving DecidableEq, Repr

/-- The full `createGeometryFromImageData`: run the scan, scale the uvs by
`(1/width, 1/height)`, recenter the positions on the bounding-box center,
scale `x`/`y` by `max (1/width) (1/height)`, and rotate by `-π` about the
x axis (exactly: `(x, y, z) ↦ (x, -y, -z)`). -/
def createGeometryFromImageData (img : ImageData) (t : ℕ) (thickness : ℚ) :
    Geo :=
  let d2 := thickness / 2
  let st := gridRaw img t d2
  let sx : ℚ := 1 / (img.width : ℚ)
  let sy : ℚ := 1 / (img.height : ℚ)
  let s := max sx sy
  let cx := (qmin (st.positions.map fun v => v.1) +
    qmax (st.positions.map fun v => v.1)) / 2
  let cy := (qmin (st.positions.map fun v => v.2.1) +
    qmax (st.positions.map fun v => v.2.1)) / 2
  let cz := (qmin (st.positions.map fun v => v.2.2) +
    qmax (st.positions.map fun v => v.2.2)) / 2
  { positions := st.positions.map fun v =>
      ((v.1 - cx) * s, -((v.2.1 - cy) * s), -(v.2.2 - cz)),
    uvs := st.uvs.map fun p => (p.1 * sx, p.2 * sy),
    indices := st.indices }

/-- Effective world positions of the grid-path mesh: `generateMesh` sets
`mesh.scale.set(size, size, 1)`, which multiplies each geometry position
componentwise by `(size, size, 1)`. -/
def gridMeshPositions (img : ImageData) (opts : Options) :
    List (ℚ × ℚ × ℚ) :=
  (createGeometryFromImageData img opts.alphaThreshold opts.thickness).positions.map
    fun v => (v.1 * opts.size, v.2.1 * opts.size, v.2.2)

/-! ## Contour-path geometry (`createGeometry`) -/

/-- The shape points built in `createGeometry`: each outline point is
normalized against the contour's own bounding box and mapped to
`[-size/2, size/2]` (with the y axis flipped). -/
def shapePoints (tr : TraceResult) (size : ℚ) : List (ℚ × ℚ) :=
  let w : ℚ := ((tr.bounds.maxX : ℚ) - (tr.bounds.minX : ℚ))
  let h : ℚ := ((tr.bounds.maxY : ℚ) - (tr.bounds.minY : ℚ))
  tr.outline.map fun p =>
    ((((p.1 : ℚ) - (tr.bounds.minX : ℚ)) / w - 1 / 2) * size,
     (1 / 2 - ((p.2 : ℚ) - (tr.bounds.minY : ℚ)) / h) * size)

/-- Modelled from the spec: `THREE.ExtrudeGeometry` (an external three.js
collaborator, not part of this repository) with `bevelEnabled: false`,
which per the specification is "extruded by sweeping a copy of the polygon
by `thickness` along the depth axis": the vertex positions are the shape's
points at depth 0 and at depth `depth`. -/
def extrudePositions (pts : List (ℚ × ℚ)) (depth : ℚ) :
    List (ℚ × ℚ × ℚ) :=
  (pts.map fun p => (p.1, p.2, (0 : ℚ))) ++ pts.map fun p => (p.1, p.2, depth)

/-- Vertex positions of the contour-path mesh (`createGeometry`): the
traced outline normalized into shape points, extruded with depth equal to
`thickness`. `generateMeshLegacy` applies no mesh scale. -/
def contourPositions (img : ImageData) (opts : Options) :
    List (ℚ × ℚ × ℚ) :=
  extrudePositions (shapePoints (traceOutline img opts.alphaThreshold) opts.size)
    opts.thickness

/-! ## Mesh-generation entry points -/

/-- Modelled from the spec: the 2D canvas `getImageData` both entry points
call to obtain the pixel buffer (a DOM collaborator, not part of this
repository) fails fast with a distinct `IndexSizeError` when either
requested dimension is zero, and otherwise returns the drawn image's
pixels unchanged. -/
def canvasGetImageData (img : ImageData) : Except String ImageData :=
  if img.width = 0 ∨ img.height = 0 then .error "IndexSizeError"
  else .ok img

/-- The non-legacy `generateMesh` entry point: read the pixels back from a
`width × height` canvas, then build the grid-mesher geometry. -/
def generateMesh (img : ImageData) (opts : Options) : Except String Geo := do
  let d ← canvasGetImageData img
  pure (createGeometryFromImageData d opts.alphaThreshold opts.thickness)

/-- The legacy (contour) entry point `generateMeshLegacy`: `traceOutline`
reads the pixels back from a `width × height` canvas, then `createGeometry`
builds the extruded contour mesh. -/
def generateMeshLegacy (img : ImageData) (opts : Options) :
    Except String (List (ℚ × ℚ × ℚ)) := do
  let d ← canvasGetImageData img
  pure (contourPositions d opts)

/-! ## Concrete test images -/

/-- A 5×5 image whose solid pixels form a convex 3×3 square blob at
`[1,3] × [1,3]` (alpha 255 inside, 0 outside). -/
def imgBlob : ImageData :=
  ⟨5, 5, fun i =>
    if 1 ≤ i % 5 ∧ i % 5 ≤ 3 ∧ 1 ≤ i / 5 ∧ i / 5 ≤ 3 then 255 else 0⟩

/-- A fully opaque 2×2 image. -/
def imgFull2 : ImageData := ⟨2, 2, fun _ => 255⟩

/-- A 2×2 image with every alpha below a threshold of 128. -/
def imgTrans2 : ImageData := ⟨2, 2, fun _ => 64⟩

/-- A zero-width image. -/
def imgZero : ImageData := ⟨0, 5, fun _ => 255⟩

/-- A 3×2 image whose solid pixels are exactly the lattice points of the
triangle `{(x,y) : 1 ≤ x + y ∧ x + 2y ≤ 2}`, namely `(1,0)`, `(2,0)` and
`(0,1)`: a digitally convex, 8-connected (single-component) blob. -/
def imgTri : ImageData :=
  ⟨3, 2, fun i =>
    if 1 ≤ i % 3 + i / 3 ∧ i % 3 + 2 * (i / 3) ≤ 2 then 255 else 0⟩

/-! ## Helper facts -/

@[simp] theorem binarize_alpha (img : ImageData) (t : ℕ) (i : ℕ) :
    (binarize img t).alpha i =
      if i < img.width * img.height then
        if img.alpha i < t then 0 else 255
      else img.alpha i := rfl

/-! ## C6: thresholding is idempotent -/

/-- C6: binarization by a fixed threshold is idempotent: for every
threshold `t ≤ 255`, applying the threshold pass of `traceOutline` to an
image that is itself the result of one application of that pass leaves
every alpha value unchanged. -/
theorem binarize_idempotent (img : ImageData) (t : ℕ) (ht : t ≤ 255)
    (i : ℕ) :
    (binarize (binarize img t) t).alpha i = (binarize img t).alpha i := by
  simp only [binarize_alpha, binarize_width, binarize_height]
  split_ifs <;> omega

/-- Witness for C6 at a concrete image, threshold and pixel. -/
theorem binarize_idempotent_check :
    (binarize (binarize imgTrans2 128) 128).alpha 3 =
      (binarize imgTrans2 128).alpha 3 :=
  binarize_idempotent imgTrans2 128 (by decide) 3

/-! ## C4: threshold comparison asymmetry between the two strategies -/

/-- C4: for every in-bounds pixel and threshold `t ≤ 255`, the grid
mesher's `isSolid` holds iff `alpha ≥ t`, while the contour tracer's edge
predicate `isEdge` requires `alpha > t`; in particular at `alpha = t` the
grid path classifies the pixel solid while the contour path's edge test
rejects it. -/
theorem threshold_comparison_asymmetry (img : ImageData) (t : ℕ)
    (ht : t ≤ 255) (x y : ℕ) (hx : x < img.width) (hy : y < img.height) :
    (isSolid img t x y = true ↔ t ≤ img.alpha (y * img.width + x)) ∧
    (isEdge img t x y = true → t < img.alpha (y * img.width + x)) ∧
    (img.alpha (y * img.width + x) = t →
      isSolid img t x y = true ∧ isEdge img t x y = false) := by
  have hb : ¬ ((x : ℤ) < 0 ∨ (y : ℤ) < 0 ∨ (img.width : ℤ) ≤ (x : ℤ) ∨
      (img.height : ℤ) ≤ (y : ℤ)) := by omega
  have hb2 : ¬ ((x : ℤ) < 0 ∨ (img.width : ℤ) ≤ (x : ℤ) ∨ (y : ℤ) < 0 ∨
      (img.height : ℤ) ≤ (y : ℤ)) := by omega
  refine ⟨?_, ?_, ?_⟩
  · rw [isSolid, if_neg hb]
    simp
  · intro h
    rw [isEdge, if_neg hb2] at h
    have h1 := (Bool.and_eq_true _ _).mp h |>.1
    simpa using h1
  · intro ha
    constructor
    · rw [isSolid, if_neg hb]
      simp [ha]
    · rw [isEdge, if_neg hb2]
      simp [ha]

/-- Witness for C4 at pixel (0,0) of the fully opaque 2×2 image. -/
theorem threshold_comparison_asymmetry_check :
    (isSolid imgFull2 128 0 0 = true ↔
      128 ≤ imgFull2.alpha (0 * imgFull2.width + 0)) ∧
    (isEdge imgFull2 128 0 0 = true →
      128 < imgFull2.alpha (0 * imgFull2.width + 0)) ∧
    (imgFull2.alpha (0 * imgFull2.width + 0) = 128 →
      isSolid imgFull2 128 0 0 = true ∧ isEdge imgFull2 128 0 0 = false) :=
  threshold_comparison_asymmetry imgFull2 128 (by decide) 0 0
    (by decide) (by decide)

/-! ## C8: zero-area images fail fast -/

/-- C8: for every zero-area image (width 0 or height 0), both
mesh-generation entry points fail fast with the distinct canvas
`IndexSizeError` and return no mesh buffer. -/
theorem zero_area_fails_fast (img : ImageData) (opts : Options)
    (h : img.width = 0 ∨ img.height = 0) :
    generateMesh img opts = .error "IndexSizeError" ∧
    generateMeshLegacy img opts = .error "IndexSizeError" := by
  constructor <;>
    simp [generateMesh, generateMeshLegacy, canvasGetImageData, if_pos h,
      Bind.bind, Except.bind]

/-- Witness for C8 on a concrete zero-width image. -/
theorem zero_area_fails_fast_check :
    generateMesh imgZero ⟨1, 1, 128⟩ = .error "IndexSizeError" ∧
    generateMeshLegacy imgZero ⟨1, 1, 128⟩ = .error "IndexSizeError" :=
  zero_area_fails_fast imgZero ⟨1, 1, 128⟩ (by decide)

/-! ## C5: image with no pixel reaching the threshold -/

/-- For an image whose in-bounds alphas are all strictly below the
threshold, no pixel of the binarized image satisfies `isEdge`. -/
theorem isEdge_binarize_eq_false (img : ImageData) (t : ℕ)
    (h : ∀ i, i < img.width * img.height → img.alpha i < t) (x y : ℤ) :
    isEdge (binarize img t) t x y = false := by
  rw [isEdge]
  split
  · rfl
  · rename_i hb
    push_neg at hb
    simp only [binarize_width, binarize_height] at hb
    have hx : x.toNat < img.width := by omega
    have hy : y.toNat < img.height := by omega
    have hidx : y.toNat * img.width + x.toNat < img.width * img.height := by
      calc y.toNat * img.width + x.toNat
          < (y.toNat + 1) * img.width := by
            have h1 : (y.toNat + 1) * img.width =
                y.toNat * img.width + img.width := by ring
            omega
        _ ≤ img.height * img.width := Nat.mul_le_mul_right _ (by omega)
        _ = img.width * img.height := Nat.mul_comm _ _
    have hv : (binarize img t).alpha (y.toNat * img.width + x.toNat) = 0 := by
      simp only [binarize_alpha, binarize_width, binarize_height]
      rw [if_pos hidx, if_pos (h _ hidx)]
    have hlt : ¬ (t < (binarize img t).alpha (y.toNat * img.width + x.toNat)) := by
      rw [hv]; exact Nat.not_lt_zero t
    simp only [binarize_width, binarize_height]
    rw [decide_eq_false hlt, Bool.false_and]

/-- C5: for every image in which no pixel's alpha reaches the threshold,
`traceOutline` returns an empty outline and the degenerate bounding box
`minX = width`, `minY = height`, `maxX = maxY = 0`. -/
theorem transparent_image_trace_degenerate (img : ImageData) (t : ℕ)
    (h : ∀ i, i < img.width * img.height → img.alpha i < t) :
    (traceOutline img t).outline = [] ∧
    (traceOutline img t).bounds = ⟨(img.width : ℤ), (img.height : ℤ), 0, 0⟩ := by
  have hstart : findStart (binarize img t) t = none := by
    rw [findStart, List.find?_eq_none]
    intro p _
    simp [isEdge_binarize_eq_false img t h]
  have : traceFull img t = none := by
    rw [traceFull]
    simp only [hstart]
  constructor <;> simp [traceOutline, this, initBounds]

/-- Witness for C5 on the concrete all-transparent 2×2 image. -/
theorem transparent_image_trace_degenerate_check :
    (traceOutline imgTrans2 128).outline = [] ∧
    (traceOutline imgTrans2 128).bounds = ⟨2, 2, 0, 0⟩ :=
  transparent_image_trace_degenerate imgTrans2 128 (by decide)

/-! ## Walk lemmas -/

/-- Two grid points differing by at most one in each coordinate
(8-adjacency). -/
def adj8 (p q : ℤ × ℤ) : Prop :=
  (q.1 - p.1).natAbs ≤ 1 ∧ (q.2 - p.2).natAbs ≤ 1

instance : DecidableRel adj8 := fun p q =>
  inferInstanceAs (Decidable ((q.1 - p.1).natAbs ≤ 1 ∧ (q.2 - p.2).natAbs ≤ 1))

theorem dirOf_bound (n : ℕ) :
    (dirOf n).1.natAbs ≤ 1 ∧ (dirOf n).2.natAbs ≤ 1 := by
  rcases n with _ | _ | _ | _ | _ | _ | _ | _ | n <;> simp [dirOf]

/-- An edge pixel is inside the image bounds. -/
theorem isEdge_inBounds (img : ImageData) (t : ℕ) (x y : ℤ)
    (h : isEdge img t x y = true) :
    0 ≤ x ∧ x < img.width ∧ 0 ≤ y ∧ y < img.height := by
  rw [isEdge] at h
  split at h
  · exact absurd h (by simp)
  · rename_i hb
    push_neg at hb
    omega

/-- What a successful neighbor search guarantees: the returned pixel is an
edge pixel, is unvisited, and is 8-adjacent to the current pixel. -/
theorem findNextGo_spec (img : ImageData) (t : ℕ) (x y : ℤ) (dir : ℕ)
    (visited : List (ℤ × ℤ)) :
    ∀ l nx ny nd, findNextGo img t x y dir visited l = some (nx, ny, nd) →
      isEdge img t nx ny = true ∧ (nx, ny) ∉ visited ∧ adj8 (x, y) (nx, ny) := by
  intro l
  induction l with
  | nil => intro nx ny nd h; exact absurd h (by simp [findNextGo])
  | cons i rest ih =>
    intro nx ny nd h
    rw [findNextGo] at h
    split at h
    · rename_i hcond
      obtain ⟨he, hv⟩ := hcond
      simp only [Option.some.injEq, Prod.mk.injEq] at h
      obtain ⟨rfl, rfl, rfl⟩ := h
      refine ⟨he, hv, ?_, ?_⟩
      · simpa using (dirOf_bound ((dir + i) % 8)).1
      · simpa using (dirOf_bound ((dir + i) % 8)).2
    · exact ih nx ny nd h

/-- Specification of `findNext`. -/
theorem findNext_spec (img : ImageData) (t : ℕ) (x y : ℤ) (dir : ℕ)
    (visited : List (ℤ × ℤ)) (nx ny : ℤ) (nd : ℕ)
    (h : findNext img t x y dir visited = some (nx, ny, nd)) :
    isEdge img t nx ny = true ∧ (nx, ny) ∉ visited ∧ adj8 (x, y) (nx, ny) :=
  findNextGo_spec img t x y dir visited (List.range 8) nx ny nd h

/-- Master invariant of the do-while walk: starting from a yet-unvisited
edge pixel whose visited set mirrors the outline accumulated so far and
already contains the start pixel (or the current pixel is the start), the
walk returns a duplicate-free outline of edge pixels whose consecutive
points are 8-adjacent, and the do-while never exits through its
return-to-start condition. -/
theorem walkAux_spec (img : ImageData) (t : ℕ) (sx sy : ℤ) :
    ∀ fuel x y dir visited outline r,
      walkAux img t sx sy fuel x y dir visited outline = some r →
      isEdge img t x y = true →
      (x, y) ∉ visited →
      visited = outline.reverse →
      outline.Nodup →
      (∀ p ∈ outline, isEdge img t p.1 p.2 = true) →
      List.Chain' adj8 (outline ++ [(x, y)]) →
      ((sx, sy) ∈ visited ∨ (x, y) = (sx, sy)) →
      r.outline.Nodup ∧
      (∀ p ∈ r.outline, isEdge img t p.1 p.2 = true) ∧
      List.Chain' adj8 r.outline ∧
      r.reached = false := by
  intro fuel
  induction fuel with
  | zero =>
    intro x y dir visited outline r h
    exact absurd h (by simp [walkAux])
  | succ fuel ih =>
    intro x y dir visited outline r h hE hNV hVO hND hOE hCh hS
    have hxy_not_mem : (x, y) ∉ outline := by
      intro hmem
      exact hNV (by rw [hVO]; simpa using hmem)
    have hND1 : (outline ++ [(x, y)]).Nodup := by
      simp [List.nodup_append, hND, hxy_not_mem]
    have hOE1 : ∀ p ∈ outline ++ [(x, y)], isEdge img t p.1 p.2 = true := by
      intro p hp
      rcases List.mem_append.mp hp with hp | hp
      · exact hOE p hp
      · simp at hp; subst hp; exact hE
    have hS1 : (sx, sy) ∈ (x, y) :: visited := by
      rcases hS with hS | hS
      · exact List.mem_cons_of_mem _ hS
      · rw [← hS]; exact List.mem_cons_self _ _
    rw [walkAux] at h
    cases hfn : findNext img t x y dir ((x, y) :: visited) with
    | none =>
      rw [hfn] at h
      obtain rfl := Option.some.inj h
      exact ⟨hND1, hOE1, hCh, rfl⟩
    | some v =>
      obtain ⟨nx, ny, nd⟩ := v
      rw [hfn] at h
      obtain ⟨hE', hNV', hadj⟩ := findNext_spec img t x y dir _ nx ny nd hfn
      replace h : (if nx = sx ∧ ny = sy then
          some ⟨outline ++ [(x, y)], nx, ny, nd, (x, y) :: visited, true⟩
        else walkAux img t sx sy fuel nx ny nd ((x, y) :: visited)
          (outline ++ [(x, y)])) = some r := h
      by_cases hss : nx = sx ∧ ny = sy
      · rw [if_pos hss] at h
        exact absurd (show (nx, ny) ∈ (x, y) :: visited by
          rw [show ((nx : ℤ), (ny : ℤ)) = ((sx : ℤ), (sy : ℤ)) by
            rw [hss.1, hss.2]]
          exact hS1) hNV'
      · rw [if_neg hss] at h
        refine ih nx ny nd ((x, y) :: visited) (outline ++ [(x, y)]) r h hE'
          hNV' ?_ hND1 hOE1 ?_ (Or.inl hS1)
        · rw [hVO]; simp
        · rw [List.chain'_append]
          refine ⟨hCh, by simp, ?_⟩
          intro a ha b hb
          rw [List.getLast?_concat] at ha
          simp at ha hb
          subst ha; subst hb
          exact hadj

/-- The in-bounds grid cells of an image, as a finite set. -/
def gridFinset (img : ImageData) : Finset (ℤ × ℤ) :=
  Finset.Icc 0 ((img.width : ℤ) - 1) ×ˢ Finset.Icc 0 ((img.height : ℤ) - 1)

theorem mem_gridFinset (img : ImageData) (p : ℤ × ℤ) :
    p ∈ gridFinset img ↔
      0 ≤ p.1 ∧ p.1 < img.width ∧ 0 ≤ p.2 ∧ p.2 < img.height := by
  simp only [gridFinset, Finset.mem_product, Finset.mem_Icc]
  omega

theorem card_gridFinset (img : ImageData) :
    (gridFinset img).card = img.width * img.height := by
  have h1 : ((img.width : ℤ) - 1 + 1 - 0).toNat = img.width := by omega
  have h2 : ((img.height : ℤ) - 1 + 1 - 0).toNat = img.height := by omega
  simp only [gridFinset, Finset.card_product, Int.card_Icc, h1, h2]

/-- A duplicate-free list of edge pixels is no longer than the pixel
count. -/
theorem edge_list_length_le (img : ImageData) (t : ℕ) (l : List (ℤ × ℤ))
    (hnd : l.Nodup) (hE : ∀ p ∈ l, isEdge img t p.1 p.2 = true) :
    l.length ≤ img.width * img.height := by
  have hsub : l.toFinset ⊆ gridFinset img := by
    intro p hp
    rw [List.mem_toFinset] at hp
    rw [mem_gridFinset]
    exact isEdge_inBounds img t p.1 p.2 (hE p hp)
  calc l.length = l.toFinset.card := (List.toFinset_card_of_nodup hnd).symm
    _ ≤ (gridFinset img).card := Finset.card_le_card hsub
    _ = img.width * img.height := card_gridFinset img

/-- Fuel sufficiency: each iteration of the walk visits a fresh in-bounds
edge pixel, so with more fuel than unvisited pixels the walk cannot run
out of fuel. -/
theorem walkAux_isSome (img : ImageData) (t : ℕ) (sx sy : ℤ) :
    ∀ fuel x y dir visited outline,
      isEdge img t x y = true → (x, y) ∉ visited → visited.Nodup →
      (∀ p ∈ visited, isEdge img t p.1 p.2 = true) →
      img.width * img.height < fuel + visited.length →
      (walkAux img t sx sy fuel x y dir visited outline).isSome = true := by
  intro fuel
  induction fuel with
  | zero =>
    intro x y dir visited outline hE hNV hND hVE hF
    exfalso
    have hlen : ((x, y) :: visited).length ≤ img.width * img.height :=
      edge_list_length_le img t _ (List.nodup_cons.mpr ⟨hNV, hND⟩)
        (by
          intro p hp
          rcases List.mem_cons.mp hp with rfl | hp
          · exact hE
          · exact hVE p hp)
    simp at hlen
    omega
  | succ fuel ih =>
    intro x y dir visited outline hE hNV hND hVE hF
    rw [walkAux]
    cases hfn : findNext img t x y dir ((x, y) :: visited) with
    | none => rfl
    | some v =>
      obtain ⟨nx, ny, nd⟩ := v
      obtain ⟨hE', hNV', hadj⟩ := findNext_spec img t x y dir _ nx ny nd hfn
      show (if nx = sx ∧ ny = sy then
          some (⟨outline ++ [(x, y)], nx, ny, nd, (x, y) :: visited, true⟩ :
            WalkResult)
        else walkAux img t sx sy fuel nx ny nd ((x, y) :: visited)
          (outline ++ [(x, y)])).isSome = true
      by_cases hss : nx = sx ∧ ny = sy
      · rw [if_pos hss]; rfl
      · rw [if_neg hss]
        refine ih nx ny nd ((x, y) :: visited) (outline ++ [(x, y)]) hE' hNV'
          (List.nodup_cons.mpr ⟨hNV, hND⟩) ?_ ?_
        · intro p hp
          rcases List.mem_cons.mp hp with rfl | hp
          · exact hE
          · exact hVE p hp
        · simp only [List.length_cons]
          omega

/-- When the walk stops, either it stopped through the while condition
(a move landed on the start), or its final state has no unvisited
qualifying 8-neighbor. -/
theorem walkAux_stop (img : ImageData) (t : ℕ) (sx sy : ℤ) :
    ∀ fuel x y dir visited outline r,
      walkAux img t sx sy fuel x y dir visited outline = some r →
      r.reached = true ∨ findNext img t r.x r.y r.dir r.visited = none := by
  intro fuel
  induction fuel with
  | zero =>
    intro x y dir visited outline r h
    exact absurd h (by simp [walkAux])
  | succ fuel ih =>
    intro x y dir visited outline r h
    rw [walkAux] at h
    cases hfn : findNext img t x y dir ((x, y) :: visited) with
    | none =>
      rw [hfn] at h
      obtain rfl := Option.some.inj h
      exact Or.inr hfn
    | some v =>
      obtain ⟨nx, ny, nd⟩ := v
      rw [hfn] at h
      replace h : (if nx = sx ∧ ny = sy then
          some ⟨outline ++ [(x, y)], nx, ny, nd, (x, y) :: visited, true⟩
        else walkAux img t sx sy fuel nx ny nd ((x, y) :: visited)
          (outline ++ [(x, y)])) = some r := h
      by_cases hss : nx = sx ∧ ny = sy
      · rw [if_pos hss] at h
        obtain rfl := Option.some.inj h
        exact Or.inl rfl
      · rw [if_neg hss] at h
        exact ih nx ny nd ((x, y) :: visited) (outline ++ [(x, y)]) r h

/-! ## C9: the walk terminates -/

/-- C9: for every image and threshold with a traceable start pixel, the
walk terminates with fuel `width*height + 1`, and it stops either by a
move landing back on the start cell or when no unvisited 8-neighbor edge
pixel exists, so the trace is a finite sequence. -/
theorem contour_walk_terminates (img : ImageData) (t : ℕ) (sx sy : ℤ)
    (h : findStart (binarize img t) t = some (sx, sy)) :
    ∃ r, walkAux (binarize img t) t sx sy (img.width * img.height + 1)
        sx sy 0 [] [] = some r ∧
      (r.reached = true ∨
        findNext (binarize img t) t r.x r.y r.dir r.visited = none) := by
  have hE : isEdge (binarize img t) t sx sy = true := by
    simpa using List.find?_some h
  have hsome := walkAux_isSome (binarize img t) t sx sy
    (img.width * img.height + 1) sx sy 0 [] [] hE (by simp) (by simp)
    (by simp) (by simp)
  obtain ⟨r, hr⟩ := Option.isSome_iff_exists.mp hsome
  exact ⟨r, hr, walkAux_stop (binarize img t) t sx sy _ sx sy 0 [] [] r hr⟩

/-- Witness for C9 on the concrete convex blob image. -/
theorem contour_walk_terminates_check :
    findStart (binarize imgBlob 128) 128 = some (1, 1) ∧
    ∃ r, walkAux (binarize imgBlob 128) 128 1 1
        (imgBlob.width * imgBlob.height + 1) 1 1 0 [] [] = some r ∧
      (r.reached = true ∨
        findNext (binarize imgBlob 128) 128 r.x r.y r.dir r.visited = none) :=
  ⟨by decide, contour_walk_terminates imgBlob 128 1 1 (by decide)⟩

/-! ## C10: outline invariants -/

/-- C10: for every image and threshold, the outline returned by
`traceOutline` has no duplicate points, every point lies inside
`[0,width) × [0,height)`, and consecutive points differ by at most 1 in
each coordinate. -/
theorem outline_invariants (img : ImageData) (t : ℕ) :
    (traceOutline img t).outline.Nodup ∧
    (∀ p ∈ (traceOutline img t).outline,
      0 ≤ p.1 ∧ p.1 < img.width ∧ 0 ≤ p.2 ∧ p.2 < img.height) ∧
    List.Chain' adj8 (traceOutline img t).outline := by
  rw [traceOutline]
  cases htf : traceFull img t with
  | none => simp
  | some r =>
    rw [traceFull] at htf
    cases hfs : findStart (binarize img t) t with
    | none =>
      rw [hfs] at htf
      exact absurd htf (by simp)
    | some s =>
      obtain ⟨sx, sy⟩ := s
      rw [hfs] at htf
      replace htf : walkAux (binarize img t) t sx sy
          (img.width * img.height + 1) sx sy 0 [] [] = some r := htf
      have hE : isEdge (binarize img t) t sx sy = true := by
        simpa using List.find?_some hfs
      obtain ⟨hnd, hedge, hchain, _⟩ := walkAux_spec (binarize img t) t sx sy
        _ sx sy 0 [] [] r htf hE (by simp) (by simp) (by simp) (by simp)
        (by simp) (Or.inr rfl)
      refine ⟨hnd, ?_, hchain⟩
      intro p hp
      have := isEdge_inBounds (binarize img t) t p.1 p.2 (hedge p hp)
      simpa using this

/-! ## C2: walk closure and bounding box on convex blobs -/

/-- An edge pixel's alpha is strictly above the threshold. -/
theorem isEdge_alpha (img : ImageData) (t : ℕ) (x y : ℤ)
    (h : isEdge img t x y = true) :
    t < img.alpha (y.toNat * img.width + x.toNat) := by
  rw [isEdge] at h
  split at h
  · exact absurd h (by simp)
  · have h1 := (Bool.and_eq_true _ _).mp h |>.1
    simpa using h1

/-- The walk always returns a nonempty outline. -/
theorem walkAux_outline_ne_nil (img : ImageData) (t : ℕ) (sx sy : ℤ) :
    ∀ fuel x y dir visited outline r,
      walkAux img t sx sy fuel x y dir visited outline = some r →
      r.outline ≠ [] := by
  intro fuel
  induction fuel with
  | zero =>
    intro x y dir visited outline r h
    exact absurd h (by simp [walkAux])
  | succ fuel ih =>
    intro x y dir visited outline r h
    rw [walkAux] at h
    cases hfn : findNext img t x y dir ((x, y) :: visited) with
    | none =>
      rw [hfn] at h
      obtain rfl := Option.some.inj h
      simp
    | some v =>
      obtain ⟨nx, ny, nd⟩ := v
      rw [hfn] at h
      replace h : (if nx = sx ∧ ny = sy then
          some ⟨outline ++ [(x, y)], nx, ny, nd, (x, y) :: visited, true⟩
        else walkAux img t sx sy fuel nx ny nd ((x, y) :: visited)
          (outline ++ [(x, y)])) = some r := h
      by_cases hss : nx = sx ∧ ny = sy
      · rw [if_pos hss] at h
        obtain rfl := Option.some.inj h
        simp
      · rw [if_neg hss] at h
        exact ih nx ny nd ((x, y) :: visited) (outline ++ [(x, y)]) r h

theorem foldl_min_le_init (f : ℤ × ℤ → ℤ) :
    ∀ (l : List (ℤ × ℤ)) (a : ℤ),
      l.foldl (fun m q => min m (f q)) a ≤ a
  | [], a => le_refl a
  | q :: l, a =>
    le_trans (foldl_min_le_init f l (min a (f q))) (min_le_left _ _)

theorem foldl_min_le_mem (f : ℤ × ℤ → ℤ) :
    ∀ (l : List (ℤ × ℤ)) (a : ℤ) (p : ℤ × ℤ), p ∈ l →
      l.foldl (fun m q => min m (f q)) a ≤ f p := by
  intro l
  induction l with
  | nil => intro a p hp; exact absurd hp (List.not_mem_nil p)
  | cons q l ih =>
    intro a p hp
    rw [List.foldl_cons]
    rcases List.mem_cons.mp hp with rfl | hp
    · exact le_trans (foldl_min_le_init f l _) (min_le_right _ _)
    · exact ih _ p hp

theorem foldl_min_cases (f : ℤ × ℤ → ℤ) :
    ∀ (l : List (ℤ × ℤ)) (a : ℤ),
      l.foldl (fun m q => min m (f q)) a = a ∨
        ∃ p ∈ l, l.foldl (fun m q => min m (f q)) a = f p := by
  intro l
  induction l with
  | nil => intro a; exact Or.inl rfl
  | cons q l ih =>
    intro a
    rw [List.foldl_cons]
    rcases ih (min a (f q)) with h | ⟨p, hp, h⟩
    · rcases le_total a (f q) with hle | hle
      · exact Or.inl (by rw [h, min_eq_left hle])
      · exact Or.inr ⟨q, List.mem_cons_self _ _, by rw [h, min_eq_right hle]⟩
    · exact Or.inr ⟨p, List.mem_cons_of_mem _ hp, h⟩

theorem foldl_max_init_le (f : ℤ × ℤ → ℤ) :
    ∀ (l : List (ℤ × ℤ)) (a : ℤ),
      a ≤ l.foldl (fun m q => max m (f q)) a
  | [], a => le_refl a
  | q :: l, a =>
    le_trans (le_max_left _ _) (foldl_max_init_le f l (max a (f q)))

theorem foldl_max_mem_le (f : ℤ × ℤ → ℤ) :
    ∀ (l : List (ℤ × ℤ)) (a : ℤ) (p : ℤ × ℤ), p ∈ l →
      f p ≤ l.foldl (fun m q => max m (f q)) a := by
  intro l
  induction l with
  | nil => intro a p hp; exact absurd hp (List.not_mem_nil p)
  | cons q l ih =>
    intro a p hp
    rw [List.foldl_cons]
    rcases List.mem_cons.mp hp with rfl | hp
    · exact le_trans (le_max_right _ _) (foldl_max_init_le f l _)
    · exact ih _ p hp

theorem foldl_max_cases (f : ℤ × ℤ → ℤ) :
    ∀ (l : List (ℤ × ℤ)) (a : ℤ),
      l.foldl (fun m q => max m (f q)) a = a ∨
        ∃ p ∈ l, l.foldl (fun m q => max m (f q)) a = f p := by
  intro l
  induction l with
  | nil => intro a; exact Or.inl rfl
  | cons q l ih =>
    intro a
    rw [List.foldl_cons]
    rcases ih (max a (f q)) with h | ⟨p, hp, h⟩
    · rcases le_total (f q) a with hle | hle
      · exact Or.inl (by rw [h, max_eq_left hle])
      · exact Or.inr ⟨q, List.mem_cons_self _ _, by rw [h, max_eq_right hle]⟩
    · exact Or.inr ⟨p, List.mem_cons_of_mem _ hp, h⟩

theorem boundsFold_minX : ∀ (l : List (ℤ × ℤ)) (b : Bounds),
    (boundsFold l b).minX = l.foldl (fun m q => min m q.1) b.minX
  | [], _ => rfl
  | p :: l, b => by
    show (boundsFold l (updateBounds b p)).minX = _
    rw [boundsFold_minX l (updateBounds b p)]
    rfl

theorem boundsFold_minY : ∀ (l : List (ℤ × ℤ)) (b : Bounds),
    (boundsFold l b).minY = l.foldl (fun m q => min m q.2) b.minY
  | [], _ => rfl
  | p :: l, b => by
    show (boundsFold l (updateBounds b p)).minY = _
    rw [boundsFold_minY l (updateBounds b p)]
    rfl

theorem boundsFold_maxX : ∀ (l : List (ℤ × ℤ)) (b : Bounds),
    (boundsFold l b).maxX = l.foldl (fun m q => max m q.1) b.maxX
  | [], _ => rfl
  | p :: l, b => by
    show (boundsFold l (updateBounds b p)).maxX = _
    rw [boundsFold_maxX l (updateBounds b p)]
    rfl

theorem boundsFold_maxY : ∀ (l : List (ℤ × ℤ)) (b : Bounds),
    (boundsFold l b).maxY = l.foldl (fun m q => max m q.2) b.maxY
  | [], _ => rfl
  | p :: l, b => by
    show (boundsFold l (updateBounds b p)).maxY = _
    rw [boundsFold_maxY l (updateBounds b p)]
    rfl

/-- C2 counterexample: the digitally convex, 8-connected 3-pixel blob
`{(1,0), (2,0), (0,1)}` — exactly the lattice points of the triangle
`1 ≤ x + y ∧ x + 2y ≤ 2` in a 3×2 image — on which the walk neither
returns to its start pixel (`reached = false`) nor produces the mask's
true bounding box: starting at `(1,0)` it moves right before down-left,
traces only `[(1,0), (2,0)]`, never visits the solid pixel `(0,1)`, and
returns the box `(1,0)–(2,0)` instead of the true `(0,0)–(2,1)`. -/
theorem contour_convex_counterexample :
    (∀ x : ℕ, x < 3 → ∀ y : ℕ, y < 2 →
      (128 ≤ imgTri.alpha (y * 3 + x) ↔ 1 ≤ x + y ∧ x + 2 * y ≤ 2)) ∧
    (∀ x : ℕ, x < 3 → ∀ y : ℕ, y < 2 →
      (128 ≤ imgTri.alpha (y * 3 + x) ↔
        ((x : ℤ), (y : ℤ)) ∈ [((0 : ℤ), (1 : ℤ)), (1, 0), (2, 0)])) ∧
    adj8 ((0 : ℤ), (1 : ℤ)) (1, 0) ∧ adj8 ((1 : ℤ), (0 : ℤ)) (2, 0) ∧
    (traceFull imgTri 128).map WalkResult.reached = some false ∧
    (traceOutline imgTri 128).outline = [(1, 0), (2, 0)] ∧
    (traceOutline imgTri 128).bounds = ⟨1, 0, 2, 0⟩ ∧
    (traceOutline imgTri 128).bounds ≠ ⟨0, 0, 2, 1⟩ := by
  refine ⟨by decide, by decide, by decide, by decide, by decide, by decide,
    by decide, by decide⟩

/-- C2 (amended): the walk never exits through its return-to-start
condition for any input — the start pixel is marked visited at the first
step and every move targets an unvisited pixel — so each trace stops when
no unvisited qualifying 8-neighbor remains. For every input, the returned
bounding box is exactly the min/max over the traced outline's points:
it bounds every outline point, each of its four sides is attained by an
outline point, and every outline point is an in-bounds pixel of the
binarized mask with alpha above the threshold, so the box is contained in
the mask's true bounding box — but (per the counterexample) it can be
strictly smaller even for a convex single-component blob. On the concrete
convex 3×3 square blob the box does equal the true min/max of the solid
pixels. -/
theorem contour_walk_no_return_and_bbox :
    (∀ (img : ImageData) (t : ℕ) (r : WalkResult),
        traceFull img t = some r → r.reached = false) ∧
    (∀ (img : ImageData) (t : ℕ) (r : WalkResult),
        traceFull img t = some r →
        (∀ p ∈ (traceOutline img t).outline,
          ((traceOutline img t).bounds.minX ≤ p.1 ∧
            p.1 ≤ (traceOutline img t).bounds.maxX) ∧
          (traceOutline img t).bounds.minY ≤ p.2 ∧
            p.2 ≤ (traceOutline img t).bounds.maxY) ∧
        ((∃ p ∈ (traceOutline img t).outline,
            p.1 = (traceOutline img t).bounds.minX) ∧
          (∃ p ∈ (traceOutline img t).outline,
            p.1 = (traceOutline img t).bounds.maxX) ∧
          (∃ p ∈ (traceOutline img t).outline,
            p.2 = (traceOutline img t).bounds.minY) ∧
          (∃ p ∈ (traceOutline img t).outline,
            p.2 = (traceOutline img t).bounds.maxY)) ∧
        (∀ p ∈ (traceOutline img t).outline,
          (0 ≤ p.1 ∧ p.1 < img.width ∧ 0 ≤ p.2 ∧ p.2 < img.height) ∧
          t < (binarize img t).alpha
            (p.2.toNat * img.width + p.1.toNat))) ∧
    (traceOutline imgBlob 128).outline =
      [(1, 1), (2, 1), (3, 1), (3, 2), (3, 3), (2, 3), (1, 3), (1, 2)] ∧
    (traceOutline imgBlob 128).bounds = ⟨1, 1, 3, 3⟩ ∧
    (∀ x : ℕ, x < 5 → ∀ y : ℕ, y < 5 →
      (128 ≤ imgBlob.alpha (y * 5 + x) ↔
        1 ≤ x ∧ x ≤ 3 ∧ 1 ≤ y ∧ y ≤ 3)) := by
  have hwalk : ∀ (img : ImageData) (t : ℕ) (r : WalkResult),
      traceFull img t = some r →
      r.reached = false ∧
        (∀ p ∈ r.outline, isEdge (binarize img t) t p.1 p.2 = true) ∧
        r.outline ≠ [] ∧
        traceOutline img t =
          ⟨r.outline, boundsFold r.outline (initBounds img)⟩ := by
    intro img t r htf
    have hto : traceOutline img t =
        ⟨r.outline, boundsFold r.outline (initBounds img)⟩ := by
      rw [traceOutline, htf]
    rw [traceFull] at htf
    cases hfs : findStart (binarize img t) t with
    | none =>
      rw [hfs] at htf
      exact absurd htf (by simp)
    | some s =>
      obtain ⟨sx, sy⟩ := s
      rw [hfs] at htf
      replace htf : walkAux (binarize img t) t sx sy
          (img.width * img.height + 1) sx sy 0 [] [] = some r := htf
      have hE : isEdge (binarize img t) t sx sy = true := by
        simpa using List.find?_some hfs
      obtain ⟨_, hedge, _, hreach⟩ := walkAux_spec (binarize img t) t sx sy
        _ sx sy 0 [] [] r htf hE (by simp) (by simp) (by simp) (by simp)
        (by simp) (Or.inr rfl)
      exact ⟨hreach, hedge,
        walkAux_outline_ne_nil (binarize img t) t sx sy _ sx sy 0 [] [] r htf,
        hto⟩
  refine ⟨fun img t r htf => (hwalk img t r htf).1, ?_, by decide, by decide,
    by decide⟩
  intro img t r htf
  obtain ⟨-, hedge, hne, hto⟩ := hwalk img t r htf
  have hin : ∀ p ∈ r.outline,
      0 ≤ p.1 ∧ p.1 < img.width ∧ 0 ≤ p.2 ∧ p.2 < img.height := by
    intro p hp
    have := isEdge_inBounds (binarize img t) t p.1 p.2 (hedge p hp)
    simpa using this
  obtain ⟨p0, hp0⟩ := List.exists_mem_of_ne_nil r.outline hne
  rw [hto]
  refine ⟨?_, ⟨?_, ?_, ?_, ?_⟩, ?_⟩
  · intro p hp
    refine ⟨⟨?_, ?_⟩, ?_, ?_⟩
    · rw [boundsFold_minX]
      exact foldl_min_le_mem _ r.outline _ p hp
    · rw [boundsFold_maxX]
      exact foldl_max_mem_le _ r.outline _ p hp
    · rw [boundsFold_minY]
      exact foldl_min_le_mem _ r.outline _ p hp
    · rw [boundsFold_maxY]
      exact foldl_max_mem_le _ r.outline _ p hp
  · rw [boundsFold_minX]
    rcases foldl_min_cases (fun q => q.1) r.outline (initBounds img).minX
      with h | ⟨p, hp, h⟩
    · exfalso
      have h1 := foldl_min_le_mem (fun q => q.1) r.outline
        (initBounds img).minX p0 hp0
      have h2 := (hin p0 hp0).2.1
      rw [h] at h1
      simp [initBounds] at h1
      omega
    · exact ⟨p, hp, h.symm⟩
  · rw [boundsFold_maxX]
    rcases foldl_max_cases (fun q => q.1) r.outline (initBounds img).maxX
      with h | ⟨p, hp, h⟩
    · refine ⟨p0, hp0, ?_⟩
      have h1 := foldl_max_mem_le (fun q => q.1) r.outline
        (initBounds img).maxX p0 hp0
      have h2 := (hin p0 hp0).1
      have h0 : (initBounds img).maxX = 0 := rfl
      rw [h, h0] at h1
      rw [h, h0]
      replace h1 : p0.1 ≤ (0 : ℤ) := h1
      omega
    · exact ⟨p, hp, h.symm⟩
  · rw [boundsFold_minY]
    rcases foldl_min_cases (fun q => q.2) r.outline (initBounds img).minY
      with h | ⟨p, hp, h⟩
    · exfalso
      have h1 := foldl_min_le_mem (fun q => q.2) r.outline
        (initBounds img).minY p0 hp0
      have h2 := (hin p0 hp0).2.2.2
      rw [h] at h1
      simp [initBounds] at h1
      omega
    · exact ⟨p, hp, h.symm⟩
  · rw [boundsFold_maxY]
    rcases foldl_max_cases (fun q => q.2) r.outline (initBounds img).maxY
      with h | ⟨p, hp, h⟩
    · refine ⟨p0, hp0, ?_⟩
      have h1 := foldl_max_mem_le (fun q => q.2) r.outline
        (initBounds img).maxY p0 hp0
      have h2 := (hin p0 hp0).2.2.1
      have h0 : (initBounds img).maxY = 0 := rfl
      rw [h, h0] at h1
      rw [h, h0]
      replace h1 : p0.2 ≤ (0 : ℤ) := h1
      omega
    · exact ⟨p, hp, h.symm⟩
  · intro p hp
    refine ⟨hin p hp, ?_⟩
    have := isEdge_alpha (binarize img t) t p.1 p.2 (hedge p hp)
    simpa using this

/-- Witness for C2's amended universal parts at the concrete blob. -/
theorem contour_walk_no_return_and_bbox_check :
    (traceFull imgBlob 128).map WalkResult.reached = some false ∧
    ((traceFull imgBlob 128).map fun r =>
      decide (∃ p ∈ r.outline, p.1 = (traceOutline imgBlob 128).bounds.minX)) =
      some true := by
  cases hr : traceFull imgBlob 128 with
  | none => exact absurd hr (by decide)
  | some r =>
    constructor
    · simp [contour_walk_no_return_and_bbox.1 imgBlob 128 r hr]
    · have h := ((contour_walk_no_return_and_bbox.2.1 imgBlob 128 r hr).2.1).1
      have houtline : (traceOutline imgBlob 128).outline = r.outline := by
        rw [traceOutline, hr]
      rw [houtline] at h
      simp [decide_eq_true h]

/-! ## C3: mesh buffer well-formedness -/

/-- Well-formedness invariant of the grid mesher's buffer state: the
vertex counter equals the number of emitted positions, the index count is
a multiple of 3, and every index is in range. -/
def GeoInv (st : GeoState) : Prop :=
  st.vt = st.positions.length ∧ st.indices.length % 3 = 0 ∧
    ∀ i ∈ st.indices, i < st.vt

theorem geoInv_pushFace (d2 : ℚ) (x1 y1 x2 y2 : ℤ) (st : GeoState)
    (h : GeoInv st) : GeoInv (pushFace d2 x1 y1 x2 y2 st) := by
  obtain ⟨h1, h2, h3⟩ := h
  refine ⟨?_, ?_, ?_⟩
  · simp [pushFace, h1]
  · simp only [pushFace, List.length_append, List.length_cons,
      List.length_nil]
    omega
  · intro i hi
    simp only [pushFace, List.mem_append, List.mem_cons,
      List.not_mem_nil, or_false] at hi
    show i < st.vt + 4
    rcases hi with hi | hi
    · exact lt_of_lt_of_le (h3 i hi) (by omega)
    · omega

theorem geoInv_stepCell (img : ImageData) (t : ℕ) (d2 : ℚ) (st : GeoState)
    (c : ℤ × ℤ) (h : GeoInv st) : GeoInv (stepCell img t d2 st c) := by
  have step : ∀ (b : Bool) (x1 y1 x2 y2 : ℤ) (st : GeoState), GeoInv st →
      GeoInv (if b then pushFace d2 x1 y1 x2 y2 st else st) := by
    intro b x1 y1 x2 y2 st hst
    cases b
    · simpa using hst
    · simpa using geoInv_pushFace d2 x1 y1 x2 y2 st hst
  rw [stepCell]
  exact step _ _ _ _ _ _ (step _ _ _ _ _ _ (step _ _ _ _ _ _
    (step _ _ _ _ _ _ h)))

theorem geoInv_foldl (img : ImageData) (t : ℕ) (d2 : ℚ) :
    ∀ (l : List (ℤ × ℤ)) (st : GeoState), GeoInv st →
      GeoInv (l.foldl (stepCell img t d2) st)
  | [], _, h => h
  | c :: l, st, h =>
    geoInv_foldl img t d2 l _ (geoInv_stepCell img t d2 st c h)

theorem geoInv_gridInit (w h : ℕ) (d2 : ℚ) : GeoInv (gridInit w h d2) := by
  refine ⟨rfl, by simp [gridInit, capIndices], ?_⟩
  intro i hi
  simp [gridInit, capIndices] at hi
  show i < 8
  omega

/-- C3: for every input image and parameters, the mesh buffer produced by
the grid silhouette mesher has an index count that is a multiple of 3, and
every index is strictly below the number of emitted vertex positions. -/
theorem mesh_buffer_indices_wf (img : ImageData) (t : ℕ) (thickness : ℚ) :
    (createGeometryFromImageData img t thickness).indices.length % 3 = 0 ∧
    ∀ i ∈ (createGeometryFromImageData img t thickness).indices,
      i < (createGeometryFromImageData img t thickness).positions.length := by
  have hinv : GeoInv (gridRaw img t (thickness / 2)) :=
    geoInv_foldl img t (thickness / 2) _ _
      (geoInv_gridInit img.width img.height (thickness / 2))
  obtain ⟨h1, h2, h3⟩ := hinv
  constructor
  · simpa [createGeometryFromImageData] using h2
  · intro i hi
    simp only [createGeometryFromImageData] at hi ⊢
    rw [List.length_map]
    exact h1 ▸ h3 i hi

/-! ## C1: wall-quad counts -/

/-- Number of wall quads emitted at one scan position: one per solidity
transition test of the scan loop. -/
def facesAt (img : ImageData) (t : ℕ) (c : ℤ × ℤ) : ℕ :=
  (!isSolid img t c.1 c.2 && isSolid img t (c.1 - 1) c.2).toNat +
    (isSolid img t c.1 c.2 && !isSolid img t (c.1 - 1) c.2).toNat +
    (isSolid img t c.1 (c.2 - 1) && !isSolid img t c.1 c.2).toNat +
    (!isSolid img t c.1 (c.2 - 1) && isSolid img t c.1 c.2).toNat

theorem pushFace_indices_length (d2 : ℚ) (x1 y1 x2 y2 : ℤ) (st : GeoState) :
    (pushFace d2 x1 y1 x2 y2 st).indices.length = st.indices.length + 6 := by
  simp [pushFace]

theorem stepCell_indices_length (img : ImageData) (t : ℕ) (d2 : ℚ)
    (st : GeoState) (c : ℤ × ℤ) :
    (stepCell img t d2 st c).indices.length =
      st.indices.length + 6 * facesAt img t c := by
  simp only [stepCell, facesAt]
  cases h1 : isSolid img t c.1 c.2 <;>
    cases h2 : isSolid img t (c.1 - 1) c.2 <;>
      cases h3 : isSolid img t c.1 (c.2 - 1) <;>
        simp [pushFace_indices_length]

theorem foldl_indices_length (img : ImageData) (t : ℕ) (d2 : ℚ) :
    ∀ (l : List (ℤ × ℤ)) (st : GeoState),
      (l.foldl (stepCell img t d2) st).indices.length =
        st.indices.length + 6 * (l.map (facesAt img t)).sum
  | [], st => by simp
  | c :: l, st => by
    rw [List.foldl_cons, foldl_indices_length img t d2 l _,
      stepCell_indices_length, List.map_cons, List.sum_cons]
    ring

theorem stepCell_indices_prefix (img : ImageData) (t : ℕ) (d2 : ℚ)
    (st : GeoState) (c : ℤ × ℤ) :
    ∃ r, (stepCell img t d2 st c).indices = st.indices ++ r := by
  have step : ∀ (b : Bool) (x1 y1 x2 y2 : ℤ) (st1 : GeoState)
      (r0 : List ℕ), st1.indices = st.indices ++ r0 →
      ∃ r, (if b then pushFace d2 x1 y1 x2 y2 st1 else st1).indices =
        st.indices ++ r := by
    intro b x1 y1 x2 y2 st1 r0 h0
    cases b
    · exact ⟨r0, h0⟩
    · refine ⟨r0 ++ [st1.vt, st1.vt + 1, st1.vt + 2, st1.vt + 2,
        st1.vt + 3, st1.vt], ?_⟩
      simp [pushFace, h0]
  simp only [stepCell]
  obtain ⟨r1, h1⟩ := step _ _ _ _ _ st [] (List.append_nil _).symm
  obtain ⟨r2, h2⟩ := step _ _ _ _ _ _ r1 h1
  obtain ⟨r3, h3⟩ := step _ _ _ _ _ _ r2 h2
  exact step _ _ _ _ _ _ r3 h3

theorem foldl_indices_prefix (img : ImageData) (t : ℕ) (d2 : ℚ) :
    ∀ (l : List (ℤ × ℤ)) (st : GeoState),
      ∃ r, (l.foldl (stepCell img t d2) st).indices = st.indices ++ r
  | [], st => ⟨[], (List.append_nil _).symm⟩
  | c :: l, st => by
    rw [List.foldl_cons]
    obtain ⟨r1, h1⟩ := stepCell_indices_prefix img t d2 st c
    obtain ⟨r2, h2⟩ := foldl_indices_prefix img t d2 l (stepCell img t d2 st c)
    exact ⟨r1 ++ r2, by rw [h2, h1, List.append_assoc]⟩

theorem list_range_map_sum (n : ℕ) (f : ℕ → ℕ) :
    ((List.range n).map f).sum = ∑ i ∈ Finset.range n, f i := by
  induction n with
  | zero => simp
  | succ n ih =>
    rw [List.range_succ, List.map_append, List.sum_append,
      Finset.sum_range_succ, ih]
    simp

theorem sum_map_flatMap {α β : Type} (f : β → ℕ) (g : α → List β) :
    ∀ l : List α, ((l.flatMap g).map f).sum =
      (l.map fun a => ((g a).map f).sum).sum
  | [] => rfl
  | a :: l => by
    simp only [List.flatMap_cons, List.map_append, List.sum_append,
      List.map_cons, List.sum_cons]
    rw [sum_map_flatMap f g l]

theorem scan_sum (w h : ℕ) (f : ℤ × ℤ → ℕ) :
    ((scanCells w h).map f).sum =
      ∑ j ∈ Finset.range (h + 2), ∑ i ∈ Finset.range (w + 2),
        f ((i : ℤ) - 1, (j : ℤ) - 1) := by
  rw [scanCells, sum_map_flatMap, list_range_map_sum]
  refine Finset.sum_congr rfl ?_
  intro j _
  rw [List.map_map, list_range_map_sum]
  rfl

theorem toNat_not_and (P Q : Prop) [Decidable P] [Decidable Q] :
    (!(decide P) && decide Q).toNat = if ¬P ∧ Q then 1 else 0 := by
  by_cases hP : P <;> by_cases hQ : Q <;> simp [hP, hQ]

theorem toNat_and_not (P Q : Prop) [Decidable P] [Decidable Q] :
    (decide P && !(decide Q)).toNat = if P ∧ ¬Q then 1 else 0 := by
  by_cases hP : P <;> by_cases hQ : Q <;> simp [hP, hQ]

/-- On a fully solid mask, `isSolid` is exactly the in-bounds test. -/
theorem isSolid_full (img : ImageData) (t : ℕ)
    (hfull : ∀ x : ℕ, x < img.width → ∀ y : ℕ, y < img.height →
      t ≤ img.alpha (y * img.width + x)) (x y : ℤ) :
    isSolid img t x y =
      decide (0 ≤ x ∧ x < img.width ∧ 0 ≤ y ∧ y < img.height) := by
  rw [isSolid]
  split
  · rename_i hb
    exact (decide_eq_false (by omega)).symm
  · rename_i hb
    push_neg at hb
    have hx : x.toNat < img.width := by omega
    have hy : y.toNat < img.height := by omega
    rw [decide_eq_true (hfull x.toNat hx y.toNat hy)]
    exact (decide_eq_true (by omega)).symm

/-- Closed form of the per-cell quad count on a fully solid mask. -/
theorem facesAt_full (img : ImageData) (t : ℕ)
    (hfull : ∀ x : ℕ, x < img.width → ∀ y : ℕ, y < img.height →
      t ≤ img.alpha (y * img.width + x))
    (hw : 0 < img.width) (hh : 0 < img.height) (x y : ℤ) :
    facesAt img t (x, y) =
      (if 0 ≤ y ∧ y < (img.height : ℤ) then
        (if x = 0 then 1 else 0) +
          (if x = (img.width : ℤ) then 1 else 0) else 0) +
      (if 0 ≤ x ∧ x < (img.width : ℤ) then
        (if y = 0 then 1 else 0) +
          (if y = (img.height : ℤ) then 1 else 0) else 0) := by
  simp only [facesAt, isSolid_full img t hfull]
  rw [toNat_not_and, toNat_and_not, toNat_and_not, toNat_not_and]
  split_ifs <;> omega

theorem sum_ite_interval (n w c : ℕ) (hwn : w < n) :
    ∑ i ∈ Finset.range n, (if 1 ≤ i ∧ i ≤ w then c else 0) = c * w := by
  rw [← Finset.sum_filter]
  have hf : (Finset.range n).filter (fun i => 1 ≤ i ∧ i ≤ w) =
      Finset.Icc 1 w := by
    ext i
    simp only [Finset.mem_filter, Finset.mem_range, Finset.mem_Icc]
    omega
  rw [hf, Finset.sum_const, Nat.card_Icc, smul_eq_mul, Nat.add_sub_cancel,
    Nat.mul_comm]

theorem rowA (w h : ℕ) (hw : 0 < w) (j : ℕ) :
    ∑ i ∈ Finset.range (w + 2),
      (if (0:ℤ) ≤ ((j:ℕ):ℤ) - 1 ∧ ((j:ℕ):ℤ) - 1 < (h:ℤ) then
        (if ((i:ℕ):ℤ) - 1 = 0 then 1 else 0) +
          (if ((i:ℕ):ℤ) - 1 = (w:ℤ) then 1 else 0)
       else 0) = if 1 ≤ j ∧ j ≤ h then 2 else 0 := by
  by_cases hy : 1 ≤ j ∧ j ≤ h
  · rw [if_pos hy]
    have hc : (0:ℤ) ≤ ((j:ℕ):ℤ) - 1 ∧ ((j:ℕ):ℤ) - 1 < (h:ℤ) := by omega
    rw [Finset.sum_congr rfl fun i _ => if_pos hc]
    rw [Finset.sum_add_distrib]
    rw [Finset.sum_congr rfl fun i _ =>
      if_congr (show (((i:ℕ):ℤ) - 1 = 0) ↔ i = 1 by omega) rfl rfl]
    rw [Finset.sum_congr rfl fun i _ =>
      if_congr (show (((i:ℕ):ℤ) - 1 = (w:ℤ)) ↔ i = w + 1 by omega) rfl rfl]
    rw [Finset.sum_ite_eq' (Finset.range (w + 2)) 1 fun _ => 1]
    rw [Finset.sum_ite_eq' (Finset.range (w + 2)) (w + 1) fun _ => 1]
    rw [if_pos (Finset.mem_range.mpr (by omega)),
      if_pos (Finset.mem_range.mpr (by omega))]
  · rw [if_neg hy]
    rw [Finset.sum_congr rfl fun i _ => if_neg (by omega)]
    exact Finset.sum_const_zero

theorem rowB (w h : ℕ) (hh : 0 < h) (j : ℕ) :
    ∑ i ∈ Finset.range (w + 2),
      (if (0:ℤ) ≤ ((i:ℕ):ℤ) - 1 ∧ ((i:ℕ):ℤ) - 1 < (w:ℤ) then
        (if ((j:ℕ):ℤ) - 1 = 0 then 1 else 0) +
          (if ((j:ℕ):ℤ) - 1 = (h:ℤ) then 1 else 0)
       else 0) =
      (if j = 1 then w else 0) + (if j = h + 1 then w else 0) := by
  have hval : ((if ((j:ℕ):ℤ) - 1 = 0 then 1 else 0) +
      (if ((j:ℕ):ℤ) - 1 = (h:ℤ) then 1 else 0)) =
      ((if j = 1 then 1 else 0) + (if j = h + 1 then 1 else 0) : ℕ) := by
    congr 1
    · exact if_congr (by omega) rfl rfl
    · exact if_congr (by omega) rfl rfl
  rw [Finset.sum_congr rfl fun i _ =>
    if_congr (show ((0:ℤ) ≤ ((i:ℕ):ℤ) - 1 ∧ ((i:ℕ):ℤ) - 1 < (w:ℤ)) ↔
      (1 ≤ i ∧ i ≤ w) by omega) hval rfl]
  rw [sum_ite_interval (w + 2) w _ (by omega)]
  split_ifs <;> omega

/-- Sum of per-cell quad counts over one scan row of a fully solid
mask. -/
theorem row_sum_full (img : ImageData) (t : ℕ)
    (hfull : ∀ x : ℕ, x < img.width → ∀ y : ℕ, y < img.height →
      t ≤ img.alpha (y * img.width + x))
    (hw : 0 < img.width) (hh : 0 < img.height) (j : ℕ) :
    (∑ i ∈ Finset.range (img.width + 2),
      facesAt img t (((i:ℕ):ℤ) - 1, ((j:ℕ):ℤ) - 1)) =
    (if 1 ≤ j ∧ j ≤ img.height then 2 else 0) +
      ((if j = 1 then img.width else 0) +
        (if j = img.height + 1 then img.width else 0)) := by
  rw [Finset.sum_congr rfl fun i _ => facesAt_full img t hfull hw hh _ _]
  rw [Finset.sum_add_distrib, rowA img.width img.height hw j,
    rowB img.width img.height hh j]

/-- Total wall-quad count of the scan on a fully solid mask: the
perimeter `2(width+height)`. -/
theorem scan_faces_sum_full (img : ImageData) (t : ℕ)
    (hfull : ∀ x : ℕ, x < img.width → ∀ y : ℕ, y < img.height →
      t ≤ img.alpha (y * img.width + x))
    (hw : 0 < img.width) (hh : 0 < img.height) :
    ((scanCells img.width img.height).map (facesAt img t)).sum =
      2 * (img.width + img.height) := by
  rw [scan_sum]
  rw [Finset.sum_congr rfl fun j _ => row_sum_full img t hfull hw hh j]
  rw [Finset.sum_add_distrib, Finset.sum_add_distrib]
  rw [sum_ite_interval (img.height + 2) img.height 2 (by omega)]
  rw [Finset.sum_ite_eq' (Finset.range (img.height + 2)) 1
    fun _ => img.width]
  rw [Finset.sum_ite_eq' (Finset.range (img.height + 2)) (img.height + 1)
    fun _ => img.width]
  rw [if_pos (Finset.mem_range.mpr (by omega)),
    if_pos (Finset.mem_range.mpr (by omega))]
  ring

/-- On a mask with no solid pixel, `isSolid` is false everywhere. -/
theorem isSolid_empty (img : ImageData) (t : ℕ)
    (hempty : ∀ x : ℕ, x < img.width → ∀ y : ℕ, y < img.height →
      img.alpha (y * img.width + x) < t) (x y : ℤ) :
    isSolid img t x y = false := by
  rw [isSolid]
  split
  · rfl
  · rename_i hb
    push_neg at hb
    have := hempty x.toNat (by omega) y.toNat (by omega)
    simp only [decide_eq_false_iff_not]
    omega

/-- C1: on a fully solid `w×h` mask the grid mesher emits exactly
`2(w+h)` wall quads (hence `12 + 6·2(w+h)` triangle indices) after the 2
cap quads (the first 12 indices), and on a mask with no solid pixel it
emits 0 wall quads while still emitting exactly the 2 cap quads. -/
theorem grid_rect_wall_quads (img : ImageData) (t : ℕ) (thickness : ℚ) :
    ((0 < img.width ∧ 0 < img.height ∧
        ∀ x : ℕ, x < img.width → ∀ y : ℕ, y < img.height →
          t ≤ img.alpha (y * img.width + x)) →
      (createGeometryFromImageData img t thickness).indices.length =
          12 + 6 * (2 * (img.width + img.height)) ∧
        (createGeometryFromImageData img t thickness).indices.take 12 =
          capIndices) ∧
    ((∀ x : ℕ, x < img.width → ∀ y : ℕ, y < img.height →
        img.alpha (y * img.width + x) < t) →
      (createGeometryFromImageData img t thickness).indices = capIndices) := by
  have hidx : (createGeometryFromImageData img t thickness).indices =
      (gridRaw img t (thickness / 2)).indices := by
    simp [createGeometryFromImageData]
  constructor
  · rintro ⟨hw, hh, hfull⟩
    constructor
    · rw [hidx, gridRaw, foldl_indices_length,
        scan_faces_sum_full img t hfull hw hh]
      simp [gridInit, capIndices]
    · rw [hidx]
      obtain ⟨r, hr⟩ := foldl_indices_prefix img t (thickness / 2)
        (scanCells img.width img.height)
        (gridInit img.width img.height (thickness / 2))
      rw [gridRaw, hr]
      rw [show (gridInit img.width img.height (thickness / 2)).indices =
        capIndices from rfl]
      rw [show (12 : ℕ) = capIndices.length from rfl]
      exact List.take_left capIndices r
  · intro hempty
    have hs : ∀ x y : ℤ, isSolid img t x y = false :=
      isSolid_empty img t hempty
    have hstep : ∀ st c, stepCell img t (thickness / 2) st c = st := by
      intro st c
      rw [stepCell]
      simp [hs]
    have hfold : ∀ (l : List (ℤ × ℤ)) st,
        l.foldl (stepCell img t (thickness / 2)) st = st := by
      intro l
      induction l with
      | nil => intro st; rfl
      | cons c l ih => intro st; rw [List.foldl_cons, hstep]; exact ih st
    rw [hidx, gridRaw, hfold]
    rfl

/-- Witness for C1: the fully opaque 2×2 image yields `12 + 6·2(2+2)`
indices with cap prefix, and the all-transparent 2×2 image yields exactly
the cap indices. -/
theorem grid_rect_wall_quads_check :
    (createGeometryFromImageData imgFull2 128 1).indices.length =
        12 + 6 * (2 * (2 + 2)) ∧
    (createGeometryFromImageData imgFull2 128 1).indices.take 12 =
        capIndices ∧
    (createGeometryFromImageData imgTrans2 128 1).indices = capIndices := by
  have h1 := (grid_rect_wall_quads imgFull2 128 1).1
    ⟨by decide, by decide, by decide⟩
  have h2 := (grid_rect_wall_quads imgTrans2 128 1).2 (by decide)
  exact ⟨h1.1, h1.2, h2⟩

/-! ## C7: doubling the size parameter -/

/-- C7 counterexample: on the concrete convex blob with `thickness = 1`,
doubling `size` from 1 to 2 leaves every contour-path depth (z)
coordinate unchanged (the extrusion depth stays `thickness`); the depths
are not doubled, so the depth is not rescaled proportionally to the
doubled footprint. -/
theorem contour_depth_counterexample :
    (contourPositions imgBlob ⟨1, 2, 128⟩).map (fun v => v.2.2) =
      (contourPositions imgBlob ⟨1, 1, 128⟩).map (fun v => v.2.2) ∧
    (contourPositions imgBlob ⟨1, 2, 128⟩).map (fun v => v.2.2) =
      [0, 0, 0, 0, 0, 0, 0, 0, 1, 1, 1, 1, 1, 1, 1, 1] ∧
    (contourPositions imgBlob ⟨1, 2, 128⟩).map (fun v => v.2.2) ≠
      [0, 0, 0, 0, 0, 0, 0, 0, 2, 2, 2, 2, 2, 2, 2, 2] := by
  refine ⟨by decide, by decide, by decide⟩

/-- C7 (amended): doubling `size` with `thickness` and the image fixed
scales every output vertex position by exactly 2 in x and y on both
paths, while the depth coordinates are unchanged: the grid path's mesh
z-scale is 1, and the contour path's extrusion depth stays equal to
`thickness` rather than being rescaled with the footprint. -/
theorem size_doubling_scales_xy (img : ImageData) (th s : ℚ) (t : ℕ) :
    gridMeshPositions img ⟨th, 2 * s, t⟩ =
      (gridMeshPositions img ⟨th, s, t⟩).map
        (fun v => (2 * v.1, 2 * v.2.1, v.2.2)) ∧
    contourPositions img ⟨th, 2 * s, t⟩ =
      (contourPositions img ⟨th, s, t⟩).map
        (fun v => (2 * v.1, 2 * v.2.1, v.2.2)) := by
  constructor
  · simp only [gridMeshPositions, List.map_map]
    apply List.map_congr_left
    intro v _
    simp only [Function.comp_apply, Prod.mk.injEq]
    exact ⟨by ring, by ring, trivial⟩
  · simp only [contourPositions, shapePoints, extrudePositions,
      List.map_map, List.map_append]
    congr 1
    · apply List.map_congr_left
      intro p _
      simp only [Function.comp_apply, Prod.mk.injEq]
      exact ⟨by ring, by ring, trivial⟩
    · apply List.map_congr_left
      intro p _
      simp only [Function.comp_apply, Prod.mk.injEq]
      exact ⟨by ring, by ring, trivial⟩

end Extruder
